import Mathlib

/-!
# AutoScribe pacing engine — verification of `PacingController`

This file gives a shallow embedding of the `PacingController` class of
`src/main/stt/STTEngine.ts` together with the data types it manipulates
(`TranscriptSegment` from `src/shared/types/transcript.ts`,
`PacingSettings` / `PacingMode` from `src/shared/types/settings.ts`,
`PacedSegment` from `src/shared/types/ipc.ts`).

JavaScript numbers are modelled as rationals (`ℚ`); at every concrete
input appearing below the JavaScript double computation is exact, so the
rational model agrees with the source.  The single outstanding
`setTimeout` callback is modelled as a stored continuation
(`TimerCallback`) consumed by `fireTimer`; `clearTimeout` is modelled by
dropping the stored continuation.
-/

namespace AutoScribe

/-- `TranscriptSegment` (src/shared/types/transcript.ts): one finalized
unit of recognized text. -/
structure TranscriptSegment where
  id : String
  text : String
  timestamp : ℚ
  confidence : ℚ
  isFinal : Bool
  displayedAt : Option ℚ := none
  deriving Repr, DecidableEq

/-- `PacingMode` (src/shared/types/settings.ts). -/
inductive PacingMode where
  | sentence
  | streaming
  | instant
  deriving Repr, DecidableEq

/-- `PacingSettings` (src/shared/types/settings.ts). -/
structure PacingSettings where
  mode : PacingMode
  wpm : ℚ
  sentenceDelay : ℚ
  deriving Repr, DecidableEq

/-- `DEFAULT_SETTINGS.pacing` (src/shared/types/settings.ts):
`{ mode: 'sentence', wpm: 150, sentenceDelay: 500 }`. -/
def defaultPacing : PacingSettings :=
  { mode := .sentence, wpm := 150, sentenceDelay := 500 }

/-- `PacedSegment` (src/shared/types/ipc.ts): a segment paired with its
declared display duration in milliseconds. -/
structure PacedSegment where
  segment : TranscriptSegment
  displayDuration : ℚ
  deriving Repr, DecidableEq

/-- `text.split(/\s+/).filter(Boolean)`: the whitespace-separated
non-empty tokens of a text, as computed in `processNext` and
`emitWordsSequentially`.  Splitting the character list on whitespace
characters and dropping the empty chunks is exactly what the regex
split followed by `filter(Boolean)` produces. -/
def splitWords (text : String) : List String :=
  ((text.data.splitOnP Char.isWhitespace).filter (fun w => w ≠ [])).map
    (fun w => String.mk w)

/-- The continuation stored in the single pending `setTimeout` of the
controller: either a scheduled `processNext` drain step (sentence mode)
or a scheduled `emitWordsSequentially words original index` word step
(streaming mode). -/
inductive TimerCallback where
  | processNext
  | emitWords (words : List String) (original : TranscriptSegment) (index : Nat)
  deriving Repr, DecidableEq

/-- The mutable state of a `PacingController` instance: its `queue`,
its pending timer (`null` or a stored continuation), its `settings`,
and its `_isRunning` flag. -/
structure PCState where
  queue : List TranscriptSegment
  timer : Option TimerCallback
  settings : PacingSettings
  isRunning : Bool
  deriving Repr, DecidableEq

/-- A freshly constructed controller with the given settings. -/
def initState (settings : PacingSettings) : PCState :=
  { queue := [], timer := none, settings := settings, isRunning := false }

mutual

/-- `PacingController.processNext`: pops the head of the queue (going
idle if the queue is empty), and, per the current mode, either emits
the sentence with its computed duration and schedules the next drain
step, or starts streaming its words.  Returns the new state together
with the `paced` emissions produced synchronously. -/
def processNext (s : PCState) : PCState × List PacedSegment :=
  match hq : s.queue with
  | [] => ({ s with isRunning := false }, [])
  | seg :: rest =>
    let wordCount := (splitWords seg.text).length
    match s.settings.mode with
    | .sentence =>
      let durationMs :=
        ((wordCount : ℚ) / s.settings.wpm) * 60 * 1000 + s.settings.sentenceDelay
      ({ s with queue := rest, timer := some .processNext },
        [{ segment := seg, displayDuration := durationMs }])
    | .streaming =>
      emitWordsSequentially (splitWords seg.text) seg 0 { s with queue := rest }
    | .instant => ({ s with queue := rest }, [])
termination_by 2 * s.queue.length
decreasing_by simp [hq]; omega

/-- `PacingController.emitWordsSequentially`: past the last word it
falls through to `processNext`; otherwise it emits the cumulative
prefix of `words` up to `index` (inheriting every other field of the
original segment, with `isFinal` true exactly on the last word) with
the per-word interval as duration, and schedules the step for
`index + 1`. -/
def emitWordsSequentially (words : List String) (originalSegment : TranscriptSegment)
    (index : Nat) (s : PCState) : PCState × List PacedSegment :=
  if index ≥ words.length then
    processNext s
  else
    let cumulativeText := " ".intercalate (words.take (index + 1))
    let wordSegment : TranscriptSegment :=
      { originalSegment with
          text := cumulativeText
          isFinal := decide (index = words.length - 1) }
    let intervalMs := (60 / s.settings.wpm) * 1000
    ({ s with timer := some (.emitWords words originalSegment (index + 1)) },
      [{ segment := wordSegment, displayDuration := intervalMs }])
termination_by 2 * s.queue.length + 1
decreasing_by omega

end

/-- `PacingController.enqueue`: in instant mode, emits the segment at
once with duration `0` and leaves the state untouched; otherwise pushes
it and, if not already running, starts draining immediately. -/
def enqueue (segment : TranscriptSegment) (s : PCState) : PCState × List PacedSegment :=
  if s.settings.mode = .instant then
    (s, [{ segment := segment, displayDuration := 0 }])
  else
    let s1 := { s with queue := s.queue ++ [segment] }
    if s1.isRunning then (s1, [])
    else processNext { s1 with isRunning := true }

/-- `PacingController.stop`: cancels any pending timer and clears the
running flag; the queue is left untouched. -/
def stop (s : PCState) : PCState :=
  { s with timer := none, isRunning := false }

/-- `PacingController.flush`: stops, then emits every queued segment in
FIFO order with duration `0`, and empties the queue. -/
def flush (s : PCState) : PCState × List PacedSegment :=
  let s1 := stop s
  ({ s1 with queue := [] },
    s1.queue.map (fun segment => { segment := segment, displayDuration := 0 }))

/-- `PacingController.clear`: stops and discards the queue without
emitting. -/
def clear (s : PCState) : PCState :=
  { stop s with queue := [] }

/-- `PacingController.queueLength`. -/
def queueLength (s : PCState) : Nat :=
  s.queue.length

/-- Expiry of the pending `setTimeout`: consumes the stored continuation
and runs it.  With no pending timer nothing happens. -/
def fireTimer (s : PCState) : PCState × List PacedSegment :=
  match s.timer with
  | none => (s, [])
  | some .processNext => processNext { s with timer := none }
  | some (.emitWords w o i) => emitWordsSequentially w o i { s with timer := none }

/-- The external events driving a controller: an `enqueue` call, the
expiry of the pending timer, or one of the control-surface calls. -/
inductive Event where
  | enqueue (segment : TranscriptSegment)
  | fire
  | flush
  | stop
  | clear
  deriving Repr, DecidableEq

/-- One event applied to a state. -/
def stepEvent (s : PCState) : Event → PCState × List PacedSegment
  | .enqueue seg => enqueue seg s
  | .fire => fireTimer s
  | .flush => flush s
  | .stop => (stop s, [])
  | .clear => (clear s, [])

/-- A whole run: the final state and the concatenation of all emissions,
in order. -/
def runEvents (s : PCState) : List Event → PCState × List PacedSegment
  | [] => (s, [])
  | e :: es =>
    let p := stepEvent s e
    let q := runEvents p.1 es
    (q.1, p.2 ++ q.2)

/-- The segments enqueued by a list of events, in order. -/
def enqueuedSegs : List Event → List TranscriptSegment
  | [] => []
  | .enqueue seg :: es => seg :: enqueuedSegs es
  | _ :: es => enqueuedSegs es

/-- The identifiers carried by a list of emissions, in order. -/
def emissionIds (out : List PacedSegment) : List String :=
  out.map (fun p => p.segment.id)

/-- Collapse consecutive equal identifiers (successive streaming
emissions of one segment count once). -/
def collapse : List String → List String
  | [] => []
  | [a] => [a]
  | a :: b :: rest => if a = b then collapse (b :: rest) else a :: collapse (b :: rest)

/-- Streaming-mode settings at the default rate. -/
def streamPacing : PacingSettings :=
  { mode := .streaming, wpm := 150, sentenceDelay := 500 }

/-- Instant-mode settings at the default rate. -/
def instantPacing : PacingSettings :=
  { mode := .instant, wpm := 150, sentenceDelay := 500 }

/-- Sample segment (2 words). -/
def gA : TranscriptSegment :=
  { id := "a", text := "hello world", timestamp := 0, confidence := 1, isFinal := true }

/-- Sample segment (3 words). -/
def gB : TranscriptSegment :=
  { id := "b", text := "good morning everyone", timestamp := 1, confidence := 1, isFinal := true }

/-- Sample segment (2 words). -/
def gC : TranscriptSegment :=
  { id := "c", text := "see you", timestamp := 2, confidence := 1, isFinal := true }

/-- Sample segment with exactly 10 whitespace-separated words. -/
def gTen : TranscriptSegment :=
  { id := "t", text := "one two three four five six seven eight nine ten",
    timestamp := 3, confidence := 1, isFinal := true }

/-- Sample single-word segment. -/
def gOne : TranscriptSegment :=
  { id := "w", text := "hello", timestamp := 4, confidence := 1, isFinal := true }

/-- Sample segment whose text has no non-whitespace characters. -/
def gBlank : TranscriptSegment :=
  { id := "e", text := "   ", timestamp := 5, confidence := 1, isFinal := true }

/-- Invariant tying a reachable controller state `s` and its emission
log `L` to the enqueue history `done`: the collapsed emitted identifiers
followed by the queued identifiers are exactly the enqueued identifiers;
the settings are the fixed ones; queued segments come from the history;
a non-running controller has no pending timer; and a pending word-step
continuation belongs to the segment whose identifier was emitted last. -/
def FifoInv (σ : PacingSettings) (done : List TranscriptSegment)
    (s : PCState) (L : List PacedSegment) : Prop :=
  collapse (emissionIds L) ++ s.queue.map (fun g => g.id) = done.map (fun g => g.id)
  ∧ s.settings = σ
  ∧ (∀ g ∈ s.queue, g ∈ done)
  ∧ (s.isRunning = false → s.timer = none)
  ∧ (∀ w o i, s.timer = some (.emitWords w o i) → (emissionIds L).getLast? = some o.id)

/-- No queued segment and no pending word-step continuation carries the
identifier `x`. -/
def AvoidsId (x : String) (s : PCState) : Prop :=
  (∀ g ∈ s.queue, g.id ≠ x)
  ∧ (∀ w o i, s.timer = some (.emitWords w o i) → o.id ≠ x)

/-! ## Branch equations for the drain step -/

theorem processNext_nil (s : PCState) (h : s.queue = []) :
    processNext s = ({ s with isRunning := false }, []) := by
  unfold processNext
  split
  · rfl
  · simp_all

theorem processNext_sentence (s : PCState) (seg : TranscriptSegment)
    (rest : List TranscriptSegment) (h : s.queue = seg :: rest)
    (hm : s.settings.mode = .sentence) :
    processNext s =
      ({ s with queue := rest, timer := some .processNext },
        [{ segment := seg,
           displayDuration := (((splitWords seg.text).length : ℚ) / s.settings.wpm) * 60 * 1000
             + s.settings.sentenceDelay }]) := by
  unfold processNext
  split
  · simp_all
  · rename_i seg' rest' hq
    rw [h] at hq
    cases hq
    rw [hm]

theorem processNext_streaming (s : PCState) (seg : TranscriptSegment)
    (rest : List TranscriptSegment) (h : s.queue = seg :: rest)
    (hm : s.settings.mode = .streaming) :
    processNext s = emitWordsSequentially (splitWords seg.text) seg 0 { s with queue := rest } := by
  unfold processNext
  split
  · simp_all
  · rename_i seg' rest' hq
    rw [h] at hq
    cases hq
    rw [hm]

theorem processNext_instant (s : PCState) (seg : TranscriptSegment)
    (rest : List TranscriptSegment) (h : s.queue = seg :: rest)
    (hm : s.settings.mode = .instant) :
    processNext s = ({ s with queue := rest }, []) := by
  unfold processNext
  split
  · simp_all
  · rename_i seg' rest' hq
    rw [h] at hq
    cases hq
    rw [hm]

theorem emitWords_done (words : List String) (o : TranscriptSegment) (i : Nat) (s : PCState)
    (h : i ≥ words.length) :
    emitWordsSequentially words o i s = processNext s := by
  unfold emitWordsSequentially
  rw [if_pos h]

theorem emitWords_emit (words : List String) (o : TranscriptSegment) (i : Nat) (s : PCState)
    (h : i < words.length) :
    emitWordsSequentially words o i s =
      ({ s with timer := some (.emitWords words o (i + 1)) },
        [{ segment := { o with
              text := " ".intercalate (words.take (i + 1))
              isFinal := decide (i = words.length - 1) }
           displayDuration := (60 / s.settings.wpm) * 1000 }]) := by
  unfold emitWordsSequentially
  rw [if_neg (Nat.not_le.mpr h)]

/-! ## Structural variants (for evaluation on record literals) -/

theorem processNext_mk_nil (t : Option TimerCallback) (σ : PacingSettings) (r : Bool) :
    processNext ⟨[], t, σ, r⟩ = (⟨[], t, σ, false⟩, []) :=
  processNext_nil _ rfl

theorem processNext_mk_sentence (seg : TranscriptSegment) (rest : List TranscriptSegment)
    (t : Option TimerCallback) (wpm d : ℚ) (r : Bool) :
    processNext ⟨seg :: rest, t, ⟨.sentence, wpm, d⟩, r⟩ =
      (⟨rest, some .processNext, ⟨.sentence, wpm, d⟩, r⟩,
        [{ segment := seg,
           displayDuration := (((splitWords seg.text).length : ℚ) / wpm) * 60 * 1000 + d }]) :=
  processNext_sentence _ _ _ rfl rfl

theorem processNext_mk_streaming (seg : TranscriptSegment) (rest : List TranscriptSegment)
    (t : Option TimerCallback) (wpm d : ℚ) (r : Bool) :
    processNext ⟨seg :: rest, t, ⟨.streaming, wpm, d⟩, r⟩ =
      emitWordsSequentially (splitWords seg.text) seg 0 ⟨rest, t, ⟨.streaming, wpm, d⟩, r⟩ :=
  processNext_streaming _ _ _ rfl rfl

/-! ## Step equations for the control surface -/

theorem enqueue_instant (g : TranscriptSegment) (s : PCState)
    (h : s.settings.mode = .instant) :
    enqueue g s = (s, [{ segment := g, displayDuration := 0 }]) := by
  rw [enqueue, if_pos h]

theorem enqueue_running (g : TranscriptSegment) (s : PCState)
    (h : s.settings.mode ≠ .instant) (hr : s.isRunning = true) :
    enqueue g s = ({ s with queue := s.queue ++ [g] }, []) := by
  rw [enqueue, if_neg h]
  simp [hr]

theorem enqueue_idle (g : TranscriptSegment) (s : PCState)
    (h : s.settings.mode ≠ .instant) (hr : s.isRunning = false) :
    enqueue g s = processNext { s with queue := s.queue ++ [g], isRunning := true } := by
  rw [enqueue, if_neg h]
  simp [hr]

theorem fireTimer_none (s : PCState) (h : s.timer = none) :
    fireTimer s = (s, []) := by
  rw [fireTimer, h]

theorem fireTimer_processNext (s : PCState) (h : s.timer = some .processNext) :
    fireTimer s = processNext { s with timer := none } := by
  rw [fireTimer, h]

theorem fireTimer_emitWords (s : PCState) (w : List String) (o : TranscriptSegment) (i : Nat)
    (h : s.timer = some (.emitWords w o i)) :
    fireTimer s = emitWordsSequentially w o i { s with timer := none } := by
  rw [fireTimer, h]

/-! ## C8: instant mode bypasses the queue -/

/-- **C8.** When the mode is `instant`, every `enqueue(segment)` call
synchronously produces exactly the one emission
`{segment, displayDuration := 0}` and changes no engine state; an engine
operated only in instant mode keeps its entire state equal to the
initial one — in particular `queueLength` stays `0` at all times — and
the emissions of any operation sequence are exactly the enqueued
segments, each with duration `0`. -/
theorem C8_instant_bypass (σ : PacingSettings) (h : σ.mode = .instant) :
    (∀ s g, s.settings = σ → enqueue g s = (s, [{ segment := g, displayDuration := 0 }]))
    ∧ (∀ evs, runEvents (initState σ) evs
        = (initState σ, (enqueuedSegs evs).map (fun g => { segment := g, displayDuration := 0 })))
    ∧ (∀ evs, queueLength (runEvents (initState σ) evs).1 = 0) := by
  have henq : ∀ s g, s.settings = σ →
      enqueue g s = (s, [{ segment := g, displayDuration := 0 }]) := by
    intro s g hs
    exact enqueue_instant g s (by rw [hs, h])
  have hrun : ∀ evs, runEvents (initState σ) evs
      = (initState σ, (enqueuedSegs evs).map (fun g => { segment := g, displayDuration := 0 })) := by
    intro evs
    induction evs with
    | nil => simp [runEvents, enqueuedSegs]
    | cons e es ih =>
      cases e with
      | enqueue g =>
        simp only [runEvents, stepEvent]
        rw [henq (initState σ) g rfl]
        simp [ih, enqueuedSegs]
      | fire =>
        simp only [runEvents, stepEvent]
        rw [fireTimer_none _ rfl]
        simpa [enqueuedSegs] using ih
      | flush =>
        simp only [runEvents, stepEvent]
        rw [show flush (initState σ) = (initState σ, []) from rfl]
        simpa [enqueuedSegs] using ih
      | stop =>
        simp only [runEvents, stepEvent]
        rw [show stop (initState σ) = initState σ from rfl]
        simpa [enqueuedSegs] using ih
      | clear =>
        simp only [runEvents, stepEvent]
        rw [show clear (initState σ) = initState σ from rfl]
        simpa [enqueuedSegs] using ih
  exact ⟨henq, hrun, fun evs => by rw [hrun evs]; rfl⟩

/-- Witness for C8 at a concrete instant-mode run. -/
theorem C8_instant_bypass_witness :
    runEvents (initState instantPacing) [.enqueue gA, .enqueue gB, .fire, .flush]
      = (initState instantPacing,
         [{ segment := gA, displayDuration := 0 }, { segment := gB, displayDuration := 0 }]) := by
  have h := (C8_instant_bypass instantPacing rfl).2.1 [.enqueue gA, .enqueue gB, .fire, .flush]
  simpa [enqueuedSegs] using h

/-! ## C4: sentence-mode duration formula -/

/-- **C4.** A sentence-mode drain step emits the popped segment with
`displayDuration = (wordCount / wpm) * 60000 + sentenceDelay` where
`wordCount` counts the whitespace-separated non-empty tokens of its
text; with `wpm = 150`, `sentenceDelay = 500` and a 10-word segment the
duration is exactly `4500` ms. -/
theorem C4_sentence_duration (σ : PacingSettings) (s : PCState) (seg : TranscriptSegment)
    (rest : List TranscriptSegment) (hm : σ.mode = .sentence) (hwpm : 0 < σ.wpm)
    (hs : s.settings = σ) (hq : s.queue = seg :: rest) :
    (processNext s).2 =
      [{ segment := seg,
         displayDuration :=
           (((splitWords seg.text).length : ℚ) / σ.wpm) * 60000 + σ.sentenceDelay }]
    ∧ (σ.wpm = 150 → σ.sentenceDelay = 500 → (splitWords seg.text).length = 10 →
        (processNext s).2 = [{ segment := seg, displayDuration := 4500 }]) := by
  have h := processNext_sentence s seg rest hq (by rw [hs, hm])
  have harith : (((splitWords seg.text).length : ℚ) / σ.wpm) * 60 * 1000
      = (((splitWords seg.text).length : ℚ) / σ.wpm) * 60000 := by
    ring
  constructor
  · rw [h, hs, harith]
  · intro hw hd hlen
    rw [h, hs, hlen, hw, hd]
    norm_num

/-- Witness for C4: the 10-word sample segment at the default sentence
settings is emitted with duration exactly 4500 ms. -/
theorem C4_sentence_duration_witness :
    (processNext ⟨[gTen], none, defaultPacing, true⟩).2
      = [{ segment := gTen, displayDuration := 4500 }] := by
  have h := C4_sentence_duration defaultPacing ⟨[gTen], none, defaultPacing, true⟩ gTen []
    rfl (by norm_num [defaultPacing]) rfl rfl
  exact h.2 rfl rfl (by decide)

/-! ## C7: stop preserves the queue -/

/-- **C7.** `stop()` cancels the pending timer and marks the engine idle
while leaving the queue contents unchanged: with two segments enqueued
in sentence mode (the first emitted at enqueue time) and `stop()` called
before the scheduled wakeup fires, the second segment is still queued
(`queueLength = 1`), no timer is pending, the engine is not running, the
only emission so far is the first segment's, and a (spurious) timer
expiry emits nothing and changes nothing. -/
theorem C7_stop_preserves_queue (σ : PacingSettings) (g1 g2 : TranscriptSegment)
    (hm : σ.mode = .sentence) :
    (runEvents (initState σ) [.enqueue g1, .enqueue g2, .stop]).1
        = { queue := [g2], timer := none, settings := σ, isRunning := false }
    ∧ queueLength (runEvents (initState σ) [.enqueue g1, .enqueue g2, .stop]).1 = 1
    ∧ (runEvents (initState σ) [.enqueue g1, .enqueue g2, .stop]).2
        = [{ segment := g1,
             displayDuration := (((splitWords g1.text).length : ℚ) / σ.wpm) * 60 * 1000
               + σ.sentenceDelay }]
    ∧ fireTimer (runEvents (initState σ) [.enqueue g1, .enqueue g2, .stop]).1
        = ((runEvents (initState σ) [.enqueue g1, .enqueue g2, .stop]).1, []) := by
  have hne : σ.mode ≠ .instant := by rw [hm]; simp
  have e1 : enqueue g1 (initState σ)
      = (⟨[], some .processNext, σ, true⟩,
         [{ segment := g1,
            displayDuration := (((splitWords g1.text).length : ℚ) / σ.wpm) * 60 * 1000
              + σ.sentenceDelay }]) := by
    rw [enqueue_idle g1 (initState σ) hne rfl]
    exact processNext_sentence _ g1 [] rfl hm
  have e2 : enqueue g2 (⟨[], some .processNext, σ, true⟩ : PCState)
      = (⟨[g2], some .processNext, σ, true⟩, []) := by
    rw [enqueue_running g2 _ hne rfl]
    rfl
  have hrun : runEvents (initState σ) [.enqueue g1, .enqueue g2, .stop]
      = (⟨[g2], none, σ, false⟩,
         [{ segment := g1,
            displayDuration := (((splitWords g1.text).length : ℚ) / σ.wpm) * 60 * 1000
              + σ.sentenceDelay }]) := by
    simp only [runEvents, stepEvent]
    rw [e1, e2]
    rfl
  rw [hrun]
  exact ⟨rfl, rfl, by simp, fireTimer_none _ rfl⟩

/-- Witness for C7 at the default sentence settings with two concrete
segments: only the first (1300 ms) emission happened and the second
segment is still queued after `stop()`. -/
theorem C7_stop_preserves_queue_witness :
    (runEvents (initState defaultPacing) [.enqueue gA, .enqueue gB, .stop]).1.queue = [gB]
    ∧ (runEvents (initState defaultPacing) [.enqueue gA, .enqueue gB, .stop]).2
        = [{ segment := gA, displayDuration := 1300 }] := by
  have h := C7_stop_preserves_queue defaultPacing gA gB rfl
  refine ⟨by rw [h.1], ?_⟩
  rw [h.2.2.1]
  have hlen : (splitWords gA.text).length = 2 := by decide
  rw [hlen]
  norm_num [defaultPacing]

/-! ## C1: flush after three sentence-mode enqueues -/

/-- **C1 counterexample.** Enqueuing 3 segments in sentence mode from
idle and then flushing before any timer fires does produce exactly 3
emissions in order with an empty queue afterwards, but not all of them
have `displayDuration = 0`: the first segment is emitted synchronously
by the first `enqueue` with its computed sentence duration (here
1300 ms). -/
theorem C1_flush_counterexample :
    ((runEvents (initState defaultPacing)
        [.enqueue gA, .enqueue gB, .enqueue gC, .flush]).2.map PacedSegment.displayDuration
      = [1300, 0, 0])
    ∧ ¬ (∀ e ∈ (runEvents (initState defaultPacing)
          [.enqueue gA, .enqueue gB, .enqueue gC, .flush]).2, e.displayDuration = 0) := by
  have hne : defaultPacing.mode ≠ .instant := by simp [defaultPacing]
  have e1 : enqueue gA (initState defaultPacing)
      = (⟨[], some .processNext, defaultPacing, true⟩,
         [{ segment := gA,
            displayDuration := (((splitWords gA.text).length : ℚ) / 150) * 60 * 1000 + 500 }]) := by
    rw [enqueue_idle gA (initState defaultPacing) hne rfl]
    exact processNext_sentence _ gA [] rfl rfl
  have e2 : enqueue gB (⟨[], some .processNext, defaultPacing, true⟩ : PCState)
      = (⟨[gB], some .processNext, defaultPacing, true⟩, []) := by
    rw [enqueue_running gB _ hne rfl]; rfl
  have e3 : enqueue gC (⟨[gB], some .processNext, defaultPacing, true⟩ : PCState)
      = (⟨[gB, gC], some .processNext, defaultPacing, true⟩, []) := by
    rw [enqueue_running gC _ hne rfl]; rfl
  have hrun : runEvents (initState defaultPacing) [.enqueue gA, .enqueue gB, .enqueue gC, .flush]
      = (⟨[], none, defaultPacing, false⟩,
         [{ segment := gA,
            displayDuration := (((splitWords gA.text).length : ℚ) / 150) * 60 * 1000 + 500 },
          { segment := gB, displayDuration := 0 },
          { segment := gC, displayDuration := 0 }]) := by
    simp only [runEvents, stepEvent]
    rw [e1, e2, e3]
    rfl
  have hdur : (((splitWords gA.text).length : ℚ) / 150) * 60 * 1000 + 500 = 1300 := by
    rw [show (splitWords gA.text).length = 2 from by decide]
    norm_num
  rw [hdur] at hrun
  rw [hrun]
  constructor
  · simp
  · intro hall
    have h1 := hall ⟨gA, 1300⟩ (by simp)
    norm_num at h1

/-- **C1 amended.** From an idle sentence-mode engine, enqueuing 3
segments and then calling `flush()` before any timer fires produces
exactly 3 emissions in the original order and leaves the queue empty
and the engine idle; the first emission (produced synchronously by the
first `enqueue`) carries the computed sentence duration, and the two
emissions produced by `flush` carry `displayDuration = 0`. -/
theorem C1_flush_after_three (σ : PacingSettings) (g1 g2 g3 : TranscriptSegment)
    (hm : σ.mode = .sentence) :
    runEvents (initState σ) [.enqueue g1, .enqueue g2, .enqueue g3, .flush]
      = (⟨[], none, σ, false⟩,
         [{ segment := g1,
            displayDuration := (((splitWords g1.text).length : ℚ) / σ.wpm) * 60 * 1000
              + σ.sentenceDelay },
          { segment := g2, displayDuration := 0 },
          { segment := g3, displayDuration := 0 }]) := by
  have hne : σ.mode ≠ .instant := by rw [hm]; simp
  have e1 : enqueue g1 (initState σ)
      = (⟨[], some .processNext, σ, true⟩,
         [{ segment := g1,
            displayDuration := (((splitWords g1.text).length : ℚ) / σ.wpm) * 60 * 1000
              + σ.sentenceDelay }]) := by
    rw [enqueue_idle g1 (initState σ) hne rfl]
    exact processNext_sentence _ g1 [] rfl hm
  have e2 : enqueue g2 (⟨[], some .processNext, σ, true⟩ : PCState)
      = (⟨[g2], some .processNext, σ, true⟩, []) := by
    rw [enqueue_running g2 _ hne rfl]; rfl
  have e3 : enqueue g3 (⟨[g2], some .processNext, σ, true⟩ : PCState)
      = (⟨[g2, g3], some .processNext, σ, true⟩, []) := by
    rw [enqueue_running g3 _ hne rfl]; rfl
  simp only [runEvents, stepEvent]
  rw [e1, e2, e3]
  rfl

/-- Witness for the amended C1 at the default sentence settings. -/
theorem C1_flush_after_three_witness :
    runEvents (initState defaultPacing) [.enqueue gA, .enqueue gB, .enqueue gC, .flush]
      = (⟨[], none, defaultPacing, false⟩,
         [{ segment := gA,
            displayDuration := (((splitWords gA.text).length : ℚ) / defaultPacing.wpm) * 60 * 1000
              + defaultPacing.sentenceDelay },
          { segment := gB, displayDuration := 0 },
          { segment := gC, displayDuration := 0 }]) :=
  C1_flush_after_three defaultPacing gA gB gC rfl

/-! ## C2: going idle after the last segment -/

/-- **C2 counterexample.** In sentence mode, the drain step that pops
the last queued segment does NOT return the engine to idle: immediately
after that emission a wakeup is still scheduled and `isRunning` is
`true` (the engine only goes idle when that timer fires and finds the
queue empty). -/
theorem C2_idle_counterexample :
    (enqueue gA (initState defaultPacing)).1.timer = some .processNext
    ∧ (enqueue gA (initState defaultPacing)).1.isRunning = true
    ∧ (enqueue gA (initState defaultPacing)).1.queue = []
    ∧ (enqueue gA (initState defaultPacing)).2.length = 1 := by
  have hne : defaultPacing.mode ≠ .instant := by simp [defaultPacing]
  have e1 : enqueue gA (initState defaultPacing)
      = (⟨[], some .processNext, defaultPacing, true⟩,
         [{ segment := gA,
            displayDuration := (((splitWords gA.text).length : ℚ) / 150) * 60 * 1000 + 500 }]) := by
    rw [enqueue_idle gA (initState defaultPacing) hne rfl]
    exact processNext_sentence _ gA [] rfl rfl
  rw [e1]
  exact ⟨rfl, rfl, rfl, rfl⟩

/-- **C2 amended.** In sentence mode, a drain step that pops a segment
leaving the queue empty still emits it and schedules another wakeup
(timer pending, `isRunning` still `true`); the engine returns to idle at
the NEXT drain step: when that timer fires it finds the queue empty,
produces no emission, and only then is `isRunning` false with no timer
pending. -/
theorem C2_idle_next_drain_step (σ : PacingSettings) (s : PCState) (seg : TranscriptSegment)
    (hm : σ.mode = .sentence) (hs : s.settings = σ) (hq : s.queue = [seg])
    (hr : s.isRunning = true) :
    processNext s
      = (⟨[], some .processNext, σ, true⟩,
         [{ segment := seg,
            displayDuration := (((splitWords seg.text).length : ℚ) / σ.wpm) * 60 * 1000
              + σ.sentenceDelay }])
    ∧ (processNext s).1.timer = some .processNext
    ∧ (processNext s).1.isRunning = true
    ∧ fireTimer (processNext s).1 = (⟨[], none, σ, false⟩, []) := by
  obtain ⟨q, t, st, r⟩ := s
  change q = [seg] at hq
  change st = σ at hs
  change r = true at hr
  subst hq hs hr
  have h := processNext_sentence ⟨[seg], t, st, true⟩ seg [] rfl hm
  refine ⟨h, by rw [h], by rw [h], ?_⟩
  rw [h, fireTimer_processNext _ rfl]
  exact processNext_nil _ rfl

/-- Witness for the amended C2: one segment at the default sentence
settings; after its emission the timer is pending, and firing it
returns the engine to idle with no further emission. -/
theorem C2_idle_next_drain_step_witness :
    processNext ⟨[gA], none, defaultPacing, true⟩
      = (⟨[], some .processNext, defaultPacing, true⟩,
         [{ segment := gA,
            displayDuration := (((splitWords gA.text).length : ℚ) / defaultPacing.wpm) * 60 * 1000
              + defaultPacing.sentenceDelay }])
    ∧ fireTimer (processNext (⟨[gA], none, defaultPacing, true⟩ : PCState)).1
        = (⟨[], none, defaultPacing, false⟩, []) := by
  have h := C2_idle_next_drain_step defaultPacing ⟨[gA], none, defaultPacing, true⟩ gA
    rfl rfl rfl rfl
  exact ⟨h.1, h.2.2.2⟩

/-! ## C9: empty-text segments in streaming mode -/

/-- **C9.** A streaming-mode drain step on a segment whose text has no
non-whitespace characters produces no emission for that segment and
falls through, in the same synchronous call, to the drain step for the
rest of the queue (returning to idle if the queue is empty): no stall.
No division by the word count exists anywhere in the code — the only
divisor in the streaming interval is `wpm` — so a zero word count causes
no division by zero. -/
theorem C9_empty_words (σ : PacingSettings) (s : PCState) (seg : TranscriptSegment)
    (rest : List TranscriptSegment) (hm : σ.mode = .streaming) (hs : s.settings = σ)
    (hq : s.queue = seg :: rest) (hw : splitWords seg.text = []) :
    processNext s = processNext { s with queue := rest }
    ∧ (rest = [] → processNext s = ({ s with queue := [], isRunning := false }, [])) := by
  have h := processNext_streaming s seg rest hq (by rw [hs, hm])
  rw [h, hw, emitWords_done _ _ _ _ (by simp)]
  refine ⟨rfl, ?_⟩
  intro hrest
  subst hrest
  exact processNext_nil _ rfl

/-- Witness for C9: a blank segment ahead of a real one is skipped in
the same drain step, and a blank segment alone sends the engine idle. -/
theorem C9_empty_words_witness :
    processNext ⟨[gBlank, gOne], none, streamPacing, true⟩
      = processNext ⟨[gOne], none, streamPacing, true⟩
    ∧ processNext ⟨[gBlank], none, streamPacing, true⟩ = (⟨[], none, streamPacing, false⟩, []) := by
  have h1 := C9_empty_words streamPacing ⟨[gBlank, gOne], none, streamPacing, true⟩ gBlank [gOne]
    rfl rfl rfl (by decide)
  have h2 := C9_empty_words streamPacing ⟨[gBlank], none, streamPacing, true⟩ gBlank []
    rfl rfl rfl (by decide)
  exact ⟨h1.1, h2.2 rfl⟩

/-! ## C3: what happens after the last word of a streaming segment -/

/-- **C3 counterexample.** In streaming mode, after the emission
carrying the last word of a (single-word) segment, the engine does NOT
immediately drain the next queued segment: the next segment is still
queued, a timer was scheduled by that final word emission, and the next
segment's first emission is produced only when that timer fires — so it
is not true that only intermediate word emissions schedule a timer. -/
theorem C3_last_word_counterexample :
    ((runEvents (initState streamPacing) [.enqueue gOne, .enqueue gB]).2
        = [{ segment := { gOne with text := "hello", isFinal := true }, displayDuration := 400 }])
    ∧ (runEvents (initState streamPacing) [.enqueue gOne, .enqueue gB]).1.timer
        = some (.emitWords ["hello"] gOne 1)
    ∧ (runEvents (initState streamPacing) [.enqueue gOne, .enqueue gB]).1.queue = [gB]
    ∧ (fireTimer (runEvents (initState streamPacing) [.enqueue gOne, .enqueue gB]).1).2.map
        (fun e => e.segment.id) = ["b"] := by
  have hne : streamPacing.mode ≠ .instant := by simp [streamPacing]
  have hsw : splitWords gOne.text = ["hello"] := by decide
  have e1 : enqueue gOne (initState streamPacing)
      = (⟨[], some (.emitWords ["hello"] gOne 1), streamPacing, true⟩,
         [{ segment := { gOne with text := "hello", isFinal := true }, displayDuration := 400 }]) := by
    rw [enqueue_idle gOne (initState streamPacing) hne rfl]
    rw [processNext_streaming _ gOne [] rfl rfl, hsw]
    rw [emitWords_emit _ _ _ _ (by simp)]
    refine congrArg₂ Prod.mk rfl (congrArg₂ List.cons (congrArg₂ PacedSegment.mk (by decide) ?_) rfl)
    show (60 : ℚ) / 150 * 1000 = 400
    norm_num
  have e2 : enqueue gB (⟨[], some (.emitWords ["hello"] gOne 1), streamPacing, true⟩ : PCState)
      = (⟨[gB], some (.emitWords ["hello"] gOne 1), streamPacing, true⟩, []) := by
    rw [enqueue_running gB _ hne rfl]; rfl
  have hrun : runEvents (initState streamPacing) [.enqueue gOne, .enqueue gB]
      = (⟨[gB], some (.emitWords ["hello"] gOne 1), streamPacing, true⟩,
         [{ segment := { gOne with text := "hello", isFinal := true }, displayDuration := 400 }]) := by
    simp only [runEvents, stepEvent]
    rw [e1, e2]
    rfl
  rw [hrun]
  refine ⟨rfl, rfl, rfl, ?_⟩
  rw [fireTimer_emitWords _ ["hello"] gOne 1 rfl]
  rw [emitWords_done _ _ _ _ (by simp)]
  rw [processNext_streaming _ gB [] rfl rfl]
  rw [emitWords_emit _ _ _ _ (by norm_num [show splitWords gB.text = ["good", "morning", "everyone"] from by decide])]
  rfl

/-- **C3 amended.** In streaming mode every word emission — the one
carrying the last word of a segment included — schedules a timer for
the next word step at the per-word interval `(60 / wpm) * 1000` ms; the
next queued segment is drained only when the continuation scheduled by
the last word fires (one per-word interval after the last word's
emission), that firing adding no further delay of its own: it
immediately pops the next segment, or returns to idle if the queue is
empty. -/
theorem C3_last_word_schedules (σ : PacingSettings) (hm : σ.mode = .streaming)
    (w : List String) (o : TranscriptSegment) (i : Nat) (s : PCState)
    (hs : s.settings = σ) (hi : i < w.length) :
    (emitWordsSequentially w o i s).1.timer = some (.emitWords w o (i + 1))
    ∧ (emitWordsSequentially w o i s).2.map PacedSegment.displayDuration = [(60 / σ.wpm) * 1000]
    ∧ (∀ t : PCState, t.timer = some (.emitWords w o w.length) →
        fireTimer t = processNext { t with timer := none })
    ∧ (∀ t : PCState, (seg : TranscriptSegment) → (rest : List TranscriptSegment) →
        t.settings = σ → t.timer = some (.emitWords w o w.length) → t.queue = seg :: rest →
        fireTimer t
          = emitWordsSequentially (splitWords seg.text) seg 0 { t with timer := none, queue := rest })
    ∧ (∀ t : PCState, t.timer = some (.emitWords w o w.length) → t.queue = [] →
        fireTimer t = ({ t with timer := none, isRunning := false }, [])) := by
  have he := emitWords_emit w o i s hi
  refine ⟨by rw [he], by rw [he, hs]; simp, ?_, ?_, ?_⟩
  · intro t ht
    rw [fireTimer_emitWords t w o w.length ht]
    exact emitWords_done _ _ _ _ le_rfl
  · intro t seg rest hts ht htq
    rw [fireTimer_emitWords t w o w.length ht, emitWords_done _ _ _ _ le_rfl]
    exact processNext_streaming _ seg rest htq (by rw [hts, hm])
  · intro t ht htq
    rw [fireTimer_emitWords t w o w.length ht, emitWords_done _ _ _ _ le_rfl]
    exact processNext_nil _ htq

/-- Witness for the amended C3: a one-word segment's final emission
schedules a continuation, and firing that continuation starts draining
the next queued segment. -/
theorem C3_last_word_schedules_witness :
    (emitWordsSequentially ["hello"] gOne 0 ⟨[], none, streamPacing, true⟩).1.timer
      = some (.emitWords ["hello"] gOne 1)
    ∧ fireTimer ⟨[gB], some (.emitWords ["hello"] gOne 1), streamPacing, true⟩
        = emitWordsSequentially (splitWords gB.text) gB 0 ⟨[], none, streamPacing, true⟩ := by
  have h := C3_last_word_schedules streamPacing rfl ["hello"] gOne 0
    ⟨[], none, streamPacing, true⟩ rfl (by norm_num)
  exact ⟨h.1, h.2.2.2.1 ⟨[gB], some (.emitWords ["hello"] gOne 1), streamPacing, true⟩ gB []
    rfl rfl rfl⟩

/-! ## C5: word-by-word streaming of one segment -/

/-- Word stepping: from a state whose pending continuation is the word
step at index `j ≥ 1` of `w` with an empty queue, firing the timer
`w.length + 1 - j` times emits exactly the word prefixes `j .. n-1` and
ends idle. -/
theorem streamSteps (σ : PacingSettings) (w : List String) (o : TranscriptSegment) :
    ∀ (m j : Nat), 1 ≤ j → j ≤ w.length → j + m = w.length + 1 →
    runEvents ⟨[], some (.emitWords w o j), σ, true⟩ (List.replicate m .fire)
      = (⟨[], none, σ, false⟩,
         (List.range' j (w.length - j)).map (fun i =>
            ({ segment := { o with
                  text := " ".intercalate (w.take (i + 1))
                  isFinal := decide (i = w.length - 1) },
               displayDuration := (60 / σ.wpm) * 1000 } : PacedSegment))) := by
  intro m
  induction m with
  | zero => intro j h1 h2 h3; omega
  | succ m ih =>
    intro j h1 h2 h3
    rw [List.replicate_succ]
    simp only [runEvents, stepEvent]
    rw [fireTimer_emitWords _ w o j rfl]
    rcases Nat.lt_or_ge j w.length with hlt | hge
    · rw [emitWords_emit _ _ _ _ hlt]
      rw [ih (j + 1) (by omega) (by omega) (by omega)]
      have hn : w.length - j = (w.length - (j + 1)) + 1 := by omega
      rw [hn, List.range'_succ]
      rfl
    · rw [emitWords_done _ _ _ _ hge, processNext_nil _ rfl]
      have hm0 : m = 0 := by omega
      subst hm0
      have hz : w.length - j = 0 := by omega
      rw [hz]
      simp [runEvents]

/-- **C5.** In streaming mode a segment with `n ≥ 1` whitespace-separated
words produces exactly `n` emissions, all inheriting the original
segment's identifier; the emission for word index `i` carries the
space-joined prefix `words[0..i]`, `isFinal` is true only on the last
word, and every emission's declared duration is `60000 / wpm` ms —
exactly 400 ms at `wpm = 150`. -/
theorem C5_streaming_words (σ : PacingSettings) (seg : TranscriptSegment)
    (hm : σ.mode = .streaming) (hwpm : 0 < σ.wpm) (hw : splitWords seg.text ≠ []) :
    runEvents (initState σ) (.enqueue seg :: List.replicate (splitWords seg.text).length .fire)
      = (⟨[], none, σ, false⟩,
         (List.range (splitWords seg.text).length).map (fun i =>
            ({ segment := { seg with
                  text := " ".intercalate ((splitWords seg.text).take (i + 1))
                  isFinal := decide (i = (splitWords seg.text).length - 1) },
               displayDuration := 60000 / σ.wpm } : PacedSegment)))
    ∧ (runEvents (initState σ)
        (.enqueue seg :: List.replicate (splitWords seg.text).length .fire)).2.length
        = (splitWords seg.text).length
    ∧ (∀ e ∈ (runEvents (initState σ)
        (.enqueue seg :: List.replicate (splitWords seg.text).length .fire)).2,
          e.segment.id = seg.id ∧ e.displayDuration = 60000 / σ.wpm)
    ∧ (σ.wpm = 150 → ∀ e ∈ (runEvents (initState σ)
        (.enqueue seg :: List.replicate (splitWords seg.text).length .fire)).2,
          e.displayDuration = 400)
    ∧ ((runEvents (initState σ)
        (.enqueue seg :: List.replicate (splitWords seg.text).length .fire)).2.getLast?.map
          (fun e => e.segment.isFinal) = some true)
    ∧ (∀ e ∈ (runEvents (initState σ)
        (.enqueue seg :: List.replicate (splitWords seg.text).length .fire)).2.dropLast,
          e.segment.isFinal = false) := by
  have hne : σ.mode ≠ .instant := by rw [hm]; simp
  have hn1 : 1 ≤ (splitWords seg.text).length := by
    cases hwe : splitWords seg.text with
    | nil => exact absurd hwe hw
    | cons a l => simp
  have hdur : (60 / σ.wpm) * 1000 = 60000 / σ.wpm := by ring
  have hrun : runEvents (initState σ)
      (.enqueue seg :: List.replicate (splitWords seg.text).length .fire)
      = (⟨[], none, σ, false⟩,
         (List.range (splitWords seg.text).length).map (fun i =>
            ({ segment := { seg with
                  text := " ".intercalate ((splitWords seg.text).take (i + 1))
                  isFinal := decide (i = (splitWords seg.text).length - 1) },
               displayDuration := 60000 / σ.wpm } : PacedSegment))) := by
    have e1 : enqueue seg (initState σ)
        = (⟨[], some (.emitWords (splitWords seg.text) seg 1), σ, true⟩,
           [{ segment := { seg with
                 text := " ".intercalate ((splitWords seg.text).take 1)
                 isFinal := decide (0 = (splitWords seg.text).length - 1) },
              displayDuration := (60 / σ.wpm) * 1000 }]) := by
      rw [enqueue_idle seg (initState σ) hne rfl]
      rw [processNext_streaming _ seg [] rfl hm]
      rw [emitWords_emit _ _ _ _ hn1]
      rfl
    simp only [runEvents, stepEvent]
    rw [e1]
    rw [streamSteps σ (splitWords seg.text) seg (splitWords seg.text).length 1
      le_rfl hn1 (by omega)]
    have hr : List.range (splitWords seg.text).length
        = 0 :: List.range' 1 ((splitWords seg.text).length - 1) := by
      rw [List.range_eq_range']
      have h10 : (splitWords seg.text).length = ((splitWords seg.text).length - 1) + 1 := by
        omega
      conv_lhs => rw [h10]
      exact List.range'_succ 0 _ 1
    rw [hr]
    simp only [List.map_cons, hdur]
    rfl
  refine ⟨hrun, ?_, ?_, ?_, ?_, ?_⟩
  · rw [hrun]; simp
  · rw [hrun]
    intro e he
    simp only [List.mem_map, List.mem_range] at he
    obtain ⟨i, _, rfl⟩ := he
    exact ⟨rfl, rfl⟩
  · intro hw150
    rw [hrun]
    intro e he
    simp only [List.mem_map, List.mem_range] at he
    obtain ⟨i, _, rfl⟩ := he
    show (60000 : ℚ) / σ.wpm = 400
    rw [hw150]
    norm_num
  · rw [hrun]
    have hr : List.range (splitWords seg.text).length
        = List.range ((splitWords seg.text).length - 1) ++ [(splitWords seg.text).length - 1] := by
      conv_lhs => rw [show (splitWords seg.text).length = ((splitWords seg.text).length - 1) + 1
        from by omega]
      exact List.range_succ ((splitWords seg.text).length - 1)
    rw [hr]
    simp
  · rw [hrun]
    have hr : List.range (splitWords seg.text).length
        = List.range ((splitWords seg.text).length - 1) ++ [(splitWords seg.text).length - 1] := by
      conv_lhs => rw [show (splitWords seg.text).length = ((splitWords seg.text).length - 1) + 1
        from by omega]
      exact List.range_succ ((splitWords seg.text).length - 1)
    rw [hr, List.map_append]
    simp only [List.map_cons, List.map_nil]
    rw [List.dropLast_concat]
    intro e he
    simp only [List.mem_map, List.mem_range] at he
    obtain ⟨i, hi, rfl⟩ := he
    simp only [decide_eq_false_iff_not]
    omega

/-- Witness for C5: the 3-word sample segment at the default streaming
settings produces exactly 3 emissions, sharing the identifier, with the
cumulative prefixes, `isFinal` only on the third, and 400 ms each. -/
theorem C5_streaming_words_witness :
    (runEvents (initState streamPacing) [.enqueue gB, .fire, .fire, .fire]).2.length = 3
    ∧ (∀ e ∈ (runEvents (initState streamPacing) [.enqueue gB, .fire, .fire, .fire]).2,
        e.segment.id = "b" ∧ e.displayDuration = 400)
    ∧ (runEvents (initState streamPacing) [.enqueue gB, .fire, .fire, .fire]).2.map
        (fun e => e.segment.text) = ["good", "good morning", "good morning everyone"]
    ∧ (runEvents (initState streamPacing) [.enqueue gB, .fire, .fire, .fire]).2.map
        (fun e => e.segment.isFinal) = [false, false, true] := by
  have hev : (Event.enqueue gB :: List.replicate (splitWords gB.text).length .fire)
      = [.enqueue gB, .fire, .fire, .fire] := by
    rw [show (splitWords gB.text).length = 3 from by decide]
    rfl
  have h := C5_streaming_words streamPacing gB rfl (by norm_num [streamPacing]) (by decide)
  rw [hev] at h
  obtain ⟨h1, h2, h3, h4, -, -⟩ := h
  refine ⟨by rw [h1]; simp [show (splitWords gB.text).length = 3 from by decide], ?_, ?_, ?_⟩
  · intro e he
    exact ⟨(h3 e he).1, h4 rfl e he⟩
  · rw [h1]
    rw [show (splitWords gB.text).length = 3 from by decide]
    decide
  · rw [h1]
    rw [show (splitWords gB.text).length = 3 from by decide]
    decide

/-! ## C10: flush never resurrects an in-flight streaming segment -/

/-- A drain step stays clear of an identifier that neither the queue nor
the pending continuation carries: no emission uses it, and the successor
state's queue and continuation avoid it too. -/
theorem processNext_avoids (x : String) :
    ∀ (n : Nat) (t : PCState), t.queue.length ≤ n →
    (∀ g ∈ t.queue, g.id ≠ x) →
    (∀ w o i, t.timer = some (.emitWords w o i) → o.id ≠ x) →
    (∀ g ∈ (processNext t).1.queue, g.id ≠ x)
    ∧ (∀ w o i, (processNext t).1.timer = some (.emitWords w o i) → o.id ≠ x)
    ∧ (∀ e ∈ (processNext t).2, e.segment.id ≠ x) := by
  intro n
  induction n with
  | zero =>
    intro t hlen hq ht
    have hnil : t.queue = [] := List.length_eq_zero.mp (Nat.le_zero.mp hlen)
    rw [processNext_nil t hnil]
    exact ⟨by simp [hnil], ht, by simp⟩
  | succ n ih =>
    intro t hlen hq ht
    cases hqe : t.queue with
    | nil =>
      rw [processNext_nil t hqe]
      exact ⟨by simp [hqe], ht, by simp⟩
    | cons seg rest =>
      have hseg : seg.id ≠ x := hq seg (by rw [hqe]; exact List.mem_cons_self _ _)
      have hrest : ∀ g ∈ rest, g.id ≠ x := fun g hg =>
        hq g (by rw [hqe]; exact List.mem_cons_of_mem _ hg)
      have hlen' : rest.length ≤ n := by
        rw [hqe] at hlen
        simpa using hlen
      cases hmode : t.settings.mode with
      | sentence =>
        rw [processNext_sentence t seg rest hqe hmode]
        refine ⟨hrest, ?_, ?_⟩
        · intro w o i h
          simp at h
        · intro e he
          simp only [List.mem_singleton] at he
          subst he
          exact hseg
      | streaming =>
        rw [processNext_streaming t seg rest hqe hmode]
        cases hw : splitWords seg.text with
        | nil =>
          rw [emitWords_done [] seg 0 _ (Nat.le_refl 0)]
          exact ih { t with queue := rest } hlen' hrest ht
        | cons a l =>
          rw [emitWords_emit _ _ _ _ (by simp)]
          refine ⟨hrest, ?_, ?_⟩
          · intro w' o' i' h
            simp only [Option.some.injEq, TimerCallback.emitWords.injEq] at h
            obtain ⟨-, ho', -⟩ := h
            rw [← ho']
            exact hseg
          · intro e he
            simp only [List.mem_singleton] at he
            subst he
            exact hseg
      | instant =>
        rw [processNext_instant t seg rest hqe hmode]
        exact ⟨hrest, ht, by simp⟩

/-- Same avoidance property for a word step whose in-flight segment
avoids the identifier. -/
theorem emitWords_avoids (x : String) (w : List String) (o : TranscriptSegment) (i : Nat)
    (t : PCState) (ho : o.id ≠ x) (hq : ∀ g ∈ t.queue, g.id ≠ x)
    (ht : ∀ w' o' i', t.timer = some (.emitWords w' o' i') → o'.id ≠ x) :
    (∀ g ∈ (emitWordsSequentially w o i t).1.queue, g.id ≠ x)
    ∧ (∀ w' o' i', (emitWordsSequentially w o i t).1.timer = some (.emitWords w' o' i') →
        o'.id ≠ x)
    ∧ (∀ e ∈ (emitWordsSequentially w o i t).2, e.segment.id ≠ x) := by
  rcases Nat.lt_or_ge i w.length with hlt | hge
  · rw [emitWords_emit _ _ _ _ hlt]
    refine ⟨hq, ?_, ?_⟩
    · intro w' o' i' h
      simp only [Option.some.injEq, TimerCallback.emitWords.injEq] at h
      obtain ⟨-, ho', -⟩ := h
      rw [← ho']
      exact ho
    · intro e he
      simp only [List.mem_singleton] at he
      subst he
      exact ho
  · rw [emitWords_done _ _ _ _ hge]
    exact processNext_avoids x t.queue.length t le_rfl hq ht

/-- One event of any kind preserves avoidance of an identifier that is
never enqueued. -/
theorem stepEvent_avoids (x : String) (s : PCState) (e : Event)
    (h1 : ∀ g ∈ s.queue, g.id ≠ x)
    (h2 : ∀ w o i, s.timer = some (.emitWords w o i) → o.id ≠ x)
    (he : ∀ g ∈ enqueuedSegs [e], g.id ≠ x) :
    (∀ g ∈ (stepEvent s e).1.queue, g.id ≠ x)
    ∧ (∀ w o i, (stepEvent s e).1.timer = some (.emitWords w o i) → o.id ≠ x)
    ∧ (∀ e' ∈ (stepEvent s e).2, e'.segment.id ≠ x) := by
  cases e with
  | enqueue g =>
    have hg : g.id ≠ x := he g (by simp [enqueuedSegs])
    have hq' : ∀ g' ∈ s.queue ++ [g], g'.id ≠ x := by
      intro g' hg'
      rcases List.mem_append.mp hg' with h | h
      · exact h1 g' h
      · simp only [List.mem_singleton] at h
        subst h
        exact hg
    simp only [stepEvent]
    by_cases hmode : s.settings.mode = .instant
    · rw [enqueue_instant g s hmode]
      refine ⟨h1, h2, ?_⟩
      intro e' he'
      simp only [List.mem_singleton] at he'
      subst he'
      exact hg
    · cases hr : s.isRunning with
      | true =>
        rw [enqueue_running g s hmode hr]
        exact ⟨hq', h2, by simp⟩
      | false =>
        rw [enqueue_idle g s hmode hr]
        exact processNext_avoids x (s.queue ++ [g]).length
          { s with queue := s.queue ++ [g], isRunning := true } le_rfl hq' h2
  | fire =>
    simp only [stepEvent]
    cases htm : s.timer with
    | none =>
      rw [fireTimer_none s htm]
      exact ⟨h1, h2, by simp⟩
    | some cb =>
      cases cb with
      | processNext =>
        rw [fireTimer_processNext s htm]
        exact processNext_avoids x s.queue.length { s with timer := none } le_rfl h1
          (by intro w o i h; simp at h)
      | emitWords w o i =>
        rw [fireTimer_emitWords s w o i htm]
        exact emitWords_avoids x w o i { s with timer := none } (h2 w o i htm) h1
          (by intro w' o' i' h; simp at h)
  | flush =>
    simp only [stepEvent]
    refine ⟨?_, ?_, ?_⟩
    · intro g hg
      simp [flush, stop] at hg
    · intro w o i h
      simp [flush, stop] at h
    · intro e' he'
      simp only [flush, stop, List.mem_map] at he'
      obtain ⟨g, hg, rfl⟩ := he'
      exact h1 g hg
  | stop =>
    simp only [stepEvent]
    refine ⟨h1, ?_, ?_⟩
    · intro w o i h
      simp [stop] at h
    · intro e' he'
      simp at he'
  | clear =>
    simp only [stepEvent]
    refine ⟨?_, ?_, ?_⟩
    · intro g hg
      simp [clear, stop] at hg
    · intro w o i h
      simp [clear, stop] at h
    · intro e' he'
      simp at he'

/-- A whole run from a state avoiding an identifier, whose events never
enqueue that identifier, never emits it. -/
theorem runEvents_avoids (x : String) :
    ∀ (evs : List Event) (s : PCState),
    (∀ g ∈ s.queue, g.id ≠ x) →
    (∀ w o i, s.timer = some (.emitWords w o i) → o.id ≠ x) →
    (∀ g ∈ enqueuedSegs evs, g.id ≠ x) →
    ∀ e ∈ (runEvents s evs).2, e.segment.id ≠ x := by
  intro evs
  induction evs with
  | nil =>
    intro s h1 h2 h3
    simp [runEvents]
  | cons e es ih =>
    intro s h1 h2 h3
    have he1 : ∀ g ∈ enqueuedSegs [e], g.id ≠ x := by
      intro g hg
      apply h3
      cases e with
      | enqueue g' =>
        simp only [enqueuedSegs, List.mem_singleton] at hg
        subst hg
        exact List.mem_cons_self _ _
      | fire => simp [enqueuedSegs] at hg
      | flush => simp [enqueuedSegs] at hg
      | stop => simp [enqueuedSegs] at hg
      | clear => simp [enqueuedSegs] at hg
    have he2 : ∀ g ∈ enqueuedSegs es, g.id ≠ x := by
      intro g hg
      apply h3
      cases e with
      | enqueue g' => exact List.mem_cons_of_mem _ hg
      | fire => exact hg
      | flush => exact hg
      | stop => exact hg
      | clear => exact hg
    have hstep := stepEvent_avoids x s e h1 h2 he1
    simp only [runEvents]
    intro e' he'
    rcases List.mem_append.mp he' with h | h
    · exact hstep.2.2 e' h
    · exact ih (stepEvent s e).1 hstep.1 hstep.2.1 he2 e' h

/-- **C10.** If `flush()` is called while a streaming segment is
mid-emission (continuation at word index `k < n` pending, the segment
itself no longer in the queue), its remaining prefixes are never emitted
and no `isFinal` emission is ever produced for it: `flush` emits exactly
the segments still in the queue (each with duration `0`), the pending
continuation is cancelled, and no later event that does not re-enqueue
that identifier can ever emit it. -/
theorem C10_flush_cancels_inflight (s : PCState) (w : List String) (o : TranscriptSegment)
    (k : Nat) (ht : s.timer = some (.emitWords w o k)) (hk : k < w.length)
    (hq : ∀ g ∈ s.queue, g.id ≠ o.id) (evs : List Event)
    (hevs : ∀ g ∈ enqueuedSegs evs, g.id ≠ o.id) :
    flush s = ({ s with queue := [], timer := none, isRunning := false },
      s.queue.map (fun g => { segment := g, displayDuration := 0 }))
    ∧ (∀ e ∈ (flush s).2, e.segment.id ≠ o.id ∧ e.displayDuration = 0)
    ∧ (∀ e ∈ (runEvents (flush s).1 evs).2, e.segment.id ≠ o.id)
    ∧ ¬ ∃ e ∈ (flush s).2 ++ (runEvents (flush s).1 evs).2,
        e.segment.id = o.id ∧ e.segment.isFinal = true := by
  have hfl : flush s = ({ s with queue := [], timer := none, isRunning := false },
      s.queue.map (fun g => { segment := g, displayDuration := 0 })) := rfl
  have h2 : ∀ e ∈ (flush s).2, e.segment.id ≠ o.id ∧ e.displayDuration = 0 := by
    intro e he
    rw [hfl] at he
    simp only [List.mem_map] at he
    obtain ⟨g, hg, rfl⟩ := he
    exact ⟨hq g hg, rfl⟩
  have h3 : ∀ e ∈ (runEvents (flush s).1 evs).2, e.segment.id ≠ o.id := by
    apply runEvents_avoids o.id evs (flush s).1
    · rw [hfl]
      simp
    · rw [hfl]
      intro w' o' i' h
      simp at h
    · exact hevs
  refine ⟨hfl, h2, h3, ?_⟩
  rintro ⟨e, he, hid, -⟩
  rcases List.mem_append.mp he with h | h
  · exact (h2 e h).1 hid
  · exact h3 e h hid

/-- Witness for C10: segment `gA` is mid-stream (one of its two words
emitted), `gB` still queued; flushing emits only `gB` (duration 0), and
a later run never emits `gA`'s identifier. -/
theorem C10_flush_cancels_inflight_witness :
    flush ⟨[gB], some (.emitWords ["hello", "world"] gA 1), streamPacing, true⟩
      = (⟨[], none, streamPacing, false⟩, [{ segment := gB, displayDuration := 0 }])
    ∧ ∀ e ∈ (runEvents (⟨[], none, streamPacing, false⟩ : PCState)
        [.enqueue gC, .fire, .fire, .fire]).2, e.segment.id ≠ "a" := by
  have h := C10_flush_cancels_inflight
    ⟨[gB], some (.emitWords ["hello", "world"] gA 1), streamPacing, true⟩
    ["hello", "world"] gA 1 rfl (by norm_num)
    (by intro g hg; simp only [List.mem_singleton] at hg; subst hg; decide)
    [.enqueue gC, .fire, .fire, .fire]
    (by intro g hg; simp only [enqueuedSegs] at hg; simp at hg; subst hg; decide)
  exact ⟨h.1, h.2.2.1⟩

/-! ## C6: FIFO delivery order -/

theorem collapse_ne_nil : ∀ l : List String, l ≠ [] → collapse l ≠ [] := by
  intro l
  induction l with
  | nil => simp
  | cons a tl ih =>
    intro _
    cases tl with
    | nil => simp [collapse]
    | cons b tl2 =>
      rw [collapse]
      split
      · exact ih (by simp)
      · simp

theorem collapse_getLast? : ∀ l : List String, (collapse l).getLast? = l.getLast? := by
  intro l
  induction l with
  | nil => rfl
  | cons a tl ih =>
    cases tl with
    | nil => rfl
    | cons b tl2 =>
      show (if a = b then collapse (b :: tl2) else a :: collapse (b :: tl2)).getLast?
          = (a :: b :: tl2).getLast?
      by_cases hab : a = b
      · rw [if_pos hab, ih, List.getLast?_cons_cons]
      · rw [if_neg hab]
        obtain ⟨c, tl3, hctl⟩ : ∃ c tl3, collapse (b :: tl2) = c :: tl3 := by
          cases h : collapse (b :: tl2) with
          | nil => exact absurd h (collapse_ne_nil _ (by simp))
          | cons c tl3 => exact ⟨c, tl3, rfl⟩
        rw [hctl, List.getLast?_cons_cons, List.getLast?_cons_cons, ← hctl, ih]

theorem collapse_append_ne : ∀ (l : List String) (a : String),
    l.getLast? ≠ some a → collapse (l ++ [a]) = collapse l ++ [a] := by
  intro l
  induction l with
  | nil => intro a _; rfl
  | cons x tl ih =>
    intro a hne
    cases tl with
    | nil =>
      have hxa : x ≠ a := by
        intro h
        exact hne (by rw [h]; rfl)
      show (if x = a then collapse [a] else x :: collapse [a]) = collapse [x] ++ [a]
      rw [if_neg hxa]
      rfl
    | cons y tl2 =>
      have hne' : (y :: tl2).getLast? ≠ some a := by
        rwa [List.getLast?_cons_cons] at hne
      show (if x = y then collapse (y :: (tl2 ++ [a])) else x :: collapse (y :: (tl2 ++ [a])))
          = (if x = y then collapse (y :: tl2) else x :: collapse (y :: tl2)) ++ [a]
      rw [show y :: (tl2 ++ [a]) = (y :: tl2) ++ [a] from rfl, ih a hne']
      by_cases hxy : x = y
      · rw [if_pos hxy, if_pos hxy]
      · rw [if_neg hxy, if_neg hxy]
        rfl

theorem collapse_append_eq : ∀ (l : List String) (a : String),
    l.getLast? = some a → collapse (l ++ [a]) = collapse l := by
  intro l
  induction l with
  | nil => intro a h; cases h
  | cons x tl ih =>
    intro a h
    cases tl with
    | nil =>
      have hxa : x = a := Option.some.inj h
      show (if x = a then collapse [a] else x :: collapse [a]) = collapse [x]
      rw [if_pos hxa, hxa]
    | cons y tl2 =>
      have h' : (y :: tl2).getLast? = some a := by
        rwa [List.getLast?_cons_cons] at h
      show (if x = y then collapse (y :: (tl2 ++ [a])) else x :: collapse (y :: (tl2 ++ [a])))
          = if x = y then collapse (y :: tl2) else x :: collapse (y :: tl2)
      rw [show y :: (tl2 ++ [a]) = (y :: tl2) ++ [a] from rfl, ih a h']

/-- With adjacent-distinct target identifiers, the last emitted
identifier differs from the identifier about to be emitted next. -/
theorem collapse_last_ne (l : List String) (a : String) (r : List String)
    (hc : List.Chain' (· ≠ ·) (collapse l ++ a :: r)) :
    l.getLast? ≠ some a := by
  rw [← collapse_getLast?]
  intro h
  have hx := (List.chain'_append.mp hc).2.2 a h a (by simp)
  exact hx rfl

theorem emissionIds_snoc (L : List PacedSegment) (e : PacedSegment) :
    emissionIds (L ++ [e]) = emissionIds L ++ [e.segment.id] := by
  simp [emissionIds]

/-- A drain step of a running engine with no pending timer preserves the
FIFO invariant. -/
theorem processNext_fifo (σ : PacingSettings) (done : List TranscriptSegment)
    (t : PCState) (L : List PacedSegment)
    (hm : σ.mode = .sentence ∨ σ.mode = .streaming)
    (hset : t.settings = σ) (htm : t.timer = none) (hrun : t.isRunning = true)
    (h1 : collapse (emissionIds L) ++ t.queue.map (fun g => g.id)
        = done.map (fun g => g.id))
    (h3 : ∀ g ∈ t.queue, g ∈ done)
    (hwd : ∀ g ∈ done, splitWords g.text ≠ [])
    (hc : List.Chain' (· ≠ ·) (done.map (fun g => g.id))) :
    FifoInv σ done (processNext t).1 (L ++ (processNext t).2) := by
  cases hqe : t.queue with
  | nil =>
    rw [processNext_nil t hqe]
    refine ⟨?_, hset, ?_, ?_, ?_⟩
    · have h1' := h1
      rw [hqe] at h1'
      simp only [List.map_nil, List.append_nil] at h1'
      rw [List.append_nil]
      dsimp only
      rw [hqe]
      simpa using h1'
    · intro g hg
      exact h3 g hg
    · intro _
      exact htm
    · intro w o i h
      have h' : t.timer = some (.emitWords w o i) := h
      rw [htm] at h'
      exact Option.noConfusion h'
  | cons seg rest =>
    have hqmem : seg ∈ done := h3 seg (by rw [hqe]; exact List.mem_cons_self _ _)
    have h1' : collapse (emissionIds L) ++ seg.id :: rest.map (fun g => g.id)
        = done.map (fun g => g.id) := by
      rw [hqe] at h1
      simpa using h1
    have hlast : (emissionIds L).getLast? ≠ some seg.id := by
      apply collapse_last_ne _ _ (rest.map (fun g => g.id))
      rw [h1']
      exact hc
    have hcol : collapse (emissionIds L ++ [seg.id]) = collapse (emissionIds L) ++ [seg.id] :=
      collapse_append_ne _ _ hlast
    have hrest3 : ∀ g ∈ rest, g ∈ done := fun g hg =>
      h3 g (by rw [hqe]; exact List.mem_cons_of_mem _ hg)
    rcases hm with hms | hms
    · rw [processNext_sentence t seg rest hqe (by rw [hset, hms])]
      refine ⟨?_, hset, hrest3, ?_, ?_⟩
      · rw [emissionIds_snoc]
        dsimp only
        rw [hcol, List.append_assoc, List.singleton_append]
        exact h1'
      · intro hrf
        exact Bool.noConfusion (hrun.symm.trans (show t.isRunning = false from hrf))
      · intro w o i h
        have h' : some TimerCallback.processNext = some (.emitWords w o i) := h
        exact TimerCallback.noConfusion (Option.some.inj h')
    · have hwseg : splitWords seg.text ≠ [] := hwd seg hqmem
      have hn : 0 < (splitWords seg.text).length := List.length_pos.mpr hwseg
      rw [processNext_streaming t seg rest hqe (by rw [hset, hms]), emitWords_emit _ _ _ _ hn]
      refine ⟨?_, hset, hrest3, ?_, ?_⟩
      · rw [emissionIds_snoc]
        dsimp only
        rw [hcol, List.append_assoc, List.singleton_append]
        exact h1'
      · intro hrf
        exact Bool.noConfusion (hrun.symm.trans (show t.isRunning = false from hrf))
      · intro w o i h
        have h' : some (TimerCallback.emitWords (splitWords seg.text) seg (0 + 1))
            = some (.emitWords w o i) := h
        injection Option.some.inj h' with hw ho hi
        rw [emissionIds_snoc]
        dsimp only
        rw [List.getLast?_concat, ← ho]

/-- `enqueue` preserves the FIFO invariant, the new segment joining the
history. -/
theorem enqueue_fifo (σ : PacingSettings) (done : List TranscriptSegment)
    (s : PCState) (L : List PacedSegment) (g : TranscriptSegment)
    (hm : σ.mode = .sentence ∨ σ.mode = .streaming)
    (hwd : ∀ x ∈ done, splitWords x.text ≠ []) (hwg : splitWords g.text ≠ [])
    (hc : List.Chain' (· ≠ ·) ((done ++ [g]).map (fun x => x.id)))
    (hInv : FifoInv σ done s L) :
    FifoInv σ (done ++ [g]) (enqueue g s).1 (L ++ (enqueue g s).2) := by
  obtain ⟨h1, h2, h3, h4, h5⟩ := hInv
  have hmni : s.settings.mode ≠ .instant := by
    rw [h2]
    rcases hm with h | h <;> rw [h] <;> simp
  have h1' : collapse (emissionIds L) ++ (s.queue ++ [g]).map (fun x => x.id)
      = (done ++ [g]).map (fun x => x.id) := by
    simp only [List.map_append, List.map_cons, List.map_nil]
    rw [← List.append_assoc, h1]
  have h3' : ∀ x ∈ s.queue ++ [g], x ∈ done ++ [g] := by
    intro x hx
    rcases List.mem_append.mp hx with h | h
    · exact List.mem_append.mpr (Or.inl (h3 x h))
    · exact List.mem_append.mpr (Or.inr h)
  have hwd' : ∀ x ∈ done ++ [g], splitWords x.text ≠ [] := by
    intro x hx
    rcases List.mem_append.mp hx with h | h
    · exact hwd x h
    · simp only [List.mem_singleton] at h
      subst h
      exact hwg
  cases hr : s.isRunning with
  | true =>
    rw [enqueue_running g s hmni hr]
    refine ⟨?_, h2, h3', ?_, ?_⟩
    · rw [List.append_nil]
      exact h1'
    · intro hrf
      exact Bool.noConfusion (hr.symm.trans (show s.isRunning = false from hrf))
    · intro w o i h
      rw [List.append_nil]
      exact h5 w o i h
  | false =>
    have htm : s.timer = none := h4 hr
    rw [enqueue_idle g s hmni hr]
    exact processNext_fifo σ (done ++ [g]) { s with queue := s.queue ++ [g], isRunning := true }
      L hm h2 htm rfl h1' h3' hwd' hc

/-- A timer expiry preserves the FIFO invariant. -/
theorem fire_fifo (σ : PacingSettings) (done : List TranscriptSegment)
    (s : PCState) (L : List PacedSegment)
    (hm : σ.mode = .sentence ∨ σ.mode = .streaming)
    (hwd : ∀ x ∈ done, splitWords x.text ≠ [])
    (hc : List.Chain' (· ≠ ·) (done.map (fun x => x.id)))
    (hInv : FifoInv σ done s L) :
    FifoInv σ done (fireTimer s).1 (L ++ (fireTimer s).2) := by
  obtain ⟨h1, h2, h3, h4, h5⟩ := hInv
  cases htm : s.timer with
  | none =>
    rw [fireTimer_none s htm]
    exact ⟨by rw [List.append_nil]; exact h1, h2, h3, h4,
      by intro w o i h; rw [List.append_nil]; exact h5 w o i h⟩
  | some cb =>
    have hrun : s.isRunning = true := by
      cases hr : s.isRunning with
      | false =>
        have hn := h4 hr
        rw [hn] at htm
        exact Option.noConfusion htm
      | true => rfl
    cases cb with
    | processNext =>
      rw [fireTimer_processNext s htm]
      exact processNext_fifo σ done { s with timer := none } L hm h2 rfl hrun h1 h3 hwd hc
    | emitWords w o i =>
      have hlast : (emissionIds L).getLast? = some o.id := h5 w o i htm
      rw [fireTimer_emitWords s w o i htm]
      rcases Nat.lt_or_ge i w.length with hlt | hge
      · rw [emitWords_emit _ _ _ _ hlt]
        refine ⟨?_, h2, h3, ?_, ?_⟩
        · rw [emissionIds_snoc]
          dsimp only
          rw [collapse_append_eq _ _ hlast]
          exact h1
        · intro hrf
          exact Bool.noConfusion (hrun.symm.trans (show s.isRunning = false from hrf))
        · intro w' o' i' h
          have h' : some (TimerCallback.emitWords w o (i + 1)) = some (.emitWords w' o' i') := h
          injection Option.some.inj h' with hw ho hi
          rw [emissionIds_snoc]
          dsimp only
          rw [List.getLast?_concat, ← ho]
      · rw [emitWords_done _ _ _ _ hge]
        exact processNext_fifo σ done { s with timer := none } L hm h2 rfl hrun h1 h3 hwd hc

/-- The FIFO invariant is preserved along any run of enqueues and timer
expiries. -/
theorem runEvents_fifo (σ : PacingSettings)
    (hm : σ.mode = .sentence ∨ σ.mode = .streaming) :
    ∀ (evs : List Event) (done : List TranscriptSegment) (s : PCState) (L : List PacedSegment),
    (∀ e ∈ evs, (∃ g, e = Event.enqueue g) ∨ e = Event.fire) →
    (∀ g ∈ done, splitWords g.text ≠ []) →
    (∀ g ∈ enqueuedSegs evs, splitWords g.text ≠ []) →
    List.Chain' (· ≠ ·) ((done ++ enqueuedSegs evs).map (fun g => g.id)) →
    FifoInv σ done s L →
    FifoInv σ (done ++ enqueuedSegs evs) (runEvents s evs).1 (L ++ (runEvents s evs).2) := by
  intro evs
  induction evs with
  | nil =>
    intro done s L _ _ _ _ hInv
    simpa [runEvents, enqueuedSegs] using hInv
  | cons e es ih =>
    intro done s L honly hwd hwe hc hInv
    rcases honly e (List.mem_cons_self _ _) with ⟨g, rfl⟩ | rfl
    · have hwg : splitWords g.text ≠ [] := hwe g (List.mem_cons_self _ _)
      have hwe' : ∀ x ∈ enqueuedSegs es, splitWords x.text ≠ [] := fun x hx =>
        hwe x (List.mem_cons_of_mem _ hx)
      have hshape : done ++ enqueuedSegs (Event.enqueue g :: es)
          = (done ++ [g]) ++ enqueuedSegs es := by
        show done ++ (g :: enqueuedSegs es) = (done ++ [g]) ++ enqueuedSegs es
        rw [List.append_assoc, List.singleton_append]
      have hc' : List.Chain' (· ≠ ·) (((done ++ [g]) ++ enqueuedSegs es).map (fun x => x.id)) := by
        rw [← hshape]
        exact hc
      have hcg : List.Chain' (· ≠ ·) ((done ++ [g]).map (fun x => x.id)) := by
        rw [List.map_append] at hc'
        exact (List.chain'_append.mp hc').1
      have hstep := enqueue_fifo σ done s L g hm hwd hwg hcg hInv
      have hrec := ih (done ++ [g]) (enqueue g s).1 (L ++ (enqueue g s).2)
        (fun e' he' => honly e' (List.mem_cons_of_mem _ he'))
        (by
          intro x hx
          rcases List.mem_append.mp hx with h | h
          · exact hwd x h
          · simp only [List.mem_singleton] at h
            subst h
            exact hwg)
        hwe' hc' hstep
      simp only [runEvents, stepEvent, enqueuedSegs, List.append_assoc, List.singleton_append]
      simpa only [List.append_assoc, List.singleton_append] using hrec
    · have hcd : List.Chain' (· ≠ ·) (done.map (fun x => x.id)) := by
        rw [List.map_append] at hc
        exact (List.chain'_append.mp hc).1
      have hstep := fire_fifo σ done s L hm hwd hcd hInv
      have hrec := ih done (fireTimer s).1 (L ++ (fireTimer s).2)
        (fun e' he' => honly e' (List.mem_cons_of_mem _ he'))
        hwd hwe hc hstep
      simp only [runEvents, stepEvent, enqueuedSegs, List.append_assoc]
      simpa only [List.append_assoc] using hrec

/-- **C6.** For every sequence of segments enqueued under a fixed
sentence or streaming mode, with timer expiries interleaved arbitrarily,
once the run has fully drained the queue the sequence of segment
identifiers reaching the delivery sinks — collapsing consecutive
emissions sharing one identifier, as multi-word streaming emissions do —
equals the enqueue order: no reordering, no priority.  The segments are
assumed non-blank with adjacent-distinct identifiers, so that the
collapse is faithful. -/
theorem C6_fifo_order (σ : PacingSettings) (segs : List TranscriptSegment) (evs : List Event)
    (hm : σ.mode = .sentence ∨ σ.mode = .streaming)
    (honly : ∀ e ∈ evs, (∃ g, e = Event.enqueue g) ∨ e = Event.fire)
    (henq : enqueuedSegs evs = segs)
    (hwords : ∀ g ∈ segs, splitWords g.text ≠ [])
    (hids : List.Chain' (· ≠ ·) (segs.map (fun g => g.id)))
    (hdrained : (runEvents (initState σ) evs).1.queue = []) :
    collapse (emissionIds (runEvents (initState σ) evs).2) = segs.map (fun g => g.id) := by
  have h0 : FifoInv σ [] (initState σ) [] := by
    refine ⟨rfl, rfl, by simp [initState], fun _ => rfl, ?_⟩
    intro w o i h
    exact Option.noConfusion (show (none : Option TimerCallback) = some (.emitWords w o i) from h)
  have hrun := runEvents_fifo σ hm evs [] (initState σ) [] honly (by simp)
    (by rw [henq]; exact hwords) (by simp only [List.nil_append, henq]; exact hids) h0
  obtain ⟨h1, -, -, -, -⟩ := hrun
  rw [hdrained] at h1
  simp only [List.map_nil, List.append_nil, List.nil_append, henq] at h1
  exact h1

/-- Witness for C6: two sentence-mode segments, enqueued then drained by
two timer expiries, reach the sink in enqueue order. -/
theorem C6_fifo_order_witness :
    collapse (emissionIds (runEvents (initState defaultPacing)
      [.enqueue gA, .enqueue gB, .fire, .fire]).2) = ["a", "b"] := by
  have hne : defaultPacing.mode ≠ .instant := by simp [defaultPacing]
  have e1 : enqueue gA (initState defaultPacing)
      = (⟨[], some .processNext, defaultPacing, true⟩,
         [{ segment := gA,
            displayDuration := (((splitWords gA.text).length : ℚ) / 150) * 60 * 1000 + 500 }]) := by
    rw [enqueue_idle gA (initState defaultPacing) hne rfl]
    exact processNext_sentence _ gA [] rfl rfl
  have e2 : enqueue gB (⟨[], some .processNext, defaultPacing, true⟩ : PCState)
      = (⟨[gB], some .processNext, defaultPacing, true⟩, []) := by
    rw [enqueue_running gB _ hne rfl]
    rfl
  have e3 : fireTimer (⟨[gB], some .processNext, defaultPacing, true⟩ : PCState)
      = (⟨[], some .processNext, defaultPacing, true⟩,
         [{ segment := gB,
            displayDuration := (((splitWords gB.text).length : ℚ) / 150) * 60 * 1000 + 500 }]) := by
    rw [fireTimer_processNext _ rfl]
    exact processNext_sentence _ gB [] rfl rfl
  have e4 : fireTimer (⟨[], some .processNext, defaultPacing, true⟩ : PCState)
      = (⟨[], none, defaultPacing, false⟩, []) := by
    rw [fireTimer_processNext _ rfl]
    exact processNext_nil _ rfl
  have hdr : (runEvents (initState defaultPacing)
      [.enqueue gA, .enqueue gB, .fire, .fire]).1.queue = [] := by
    simp only [runEvents, stepEvent]
    rw [e1]
    dsimp only
    rw [e2]
    dsimp only
    rw [e3]
    dsimp only
    rw [e4]
  have h := C6_fifo_order defaultPacing [gA, gB] [.enqueue gA, .enqueue gB, .fire, .fire]
    (Or.inl rfl)
    (by
      intro e he
      simp only [List.mem_cons] at he
      rcases he with rfl | rfl | rfl | rfl | he
      · exact Or.inl ⟨gA, rfl⟩
      · exact Or.inl ⟨gB, rfl⟩
      · exact Or.inr rfl
      · exact Or.inr rfl
      · simp at he)
    rfl
    (by decide)
    (by
      rw [show List.map (fun g => g.id) [gA, gB] = ["a", "b"] from by decide]
      rw [List.chain'_pair]
      decide)
    hdr
  exact h

end AutoScribe
